import Mathlib

/-!
Verification of the context-deduplication and document-assembly engine of
`articular` (`src/articular/document.py`), over a shallow embedding of the
Python code.  JSON values are embedded as the inductive type `Json`; Python
dicts are insertion-ordered association lists; Python exception control flow
is embedded with `Option` (`none` = an exception propagates out of the
modelled fragment).
-/

set_option autoImplicit false

namespace Articular

/-- JSON values, as produced by the template transform and manipulated by
`document.py`.  Python dicts are insertion-ordered, hence the `obj`
constructor carries an association list. -/
inductive Json where
  | null : Json
  | bool : Bool → Json
  | num : Int → Json
  | str : String → Json
  | arr : List Json → Json
  | obj : List (String × Json) → Json
deriving Repr

/-- Python truthiness (`bool(x)`) restricted to JSON values: `None`, `False`,
`0`, `""`, `[]` and `{}` are falsy. -/
def truthy : Json → Bool
  | .null => false
  | .bool b => b
  | .num n => n != 0
  | .str s => s != ""
  | .arr xs => !xs.isEmpty
  | .obj kvs => !kvs.isEmpty

/-- Python `d[k]` / `d.get(k)` on a dict: the value at the first matching
key. -/
def dictLookup : List (String × Json) → String → Option Json
  | [], _ => none
  | p :: rest, k => if p.1 = k then some p.2 else dictLookup rest k

/-- Python `k in d` on a dict. -/
def dictMember : List (String × Json) → String → Bool
  | [], _ => false
  | p :: rest, k => if p.1 = k then true else dictMember rest k

/-- Python `d[k] = v`: overwrite in place (keeping the position of the key) when
the key is present, append otherwise. -/
def dictSet : List (String × Json) → String → Json → List (String × Json)
  | [], k, v => [(k, v)]
  | p :: rest, k, v => if p.1 = k then (k, v) :: rest else p :: dictSet rest k v

/-- Python `d.pop(k)`, dropping the first entry with the given key (a dict
holds at most one). -/
def dictPop : List (String × Json) → String → List (String × Json)
  | [], _ => []
  | p :: rest, k => if p.1 = k then rest else p :: dictPop rest k

/-- Python `d.update(other)` for a dict argument: set each entry of `other`
in order (last write wins). -/
def dictUpdate (d other : List (String × Json)) : List (String × Json) :=
  other.foldl (fun acc p => dictSet acc p.1 p.2) d

/-- The canonical ontology context URI. -/
def CANONICAL : String :=
  "https://edwardanderson.github.io/articular/ns/v1/articular.json"

/-- `document.py` line 88: `[i for i in user_contexts if isinstance(i, str)]`,
with the surrounding `except TypeError` turning a non-iterable `@context`
into an empty key list.  Iterating a Python string yields its characters
(each a one-character string); iterating a dict yields its keys. -/
def remoteContextKeys : Json → List String
  | .arr items => items.filterMap fun j =>
      match j with
      | .str s => some s
      | _ => none
  | .str s => s.toList.map fun c => String.mk [c]
  | .obj kvs => kvs.map fun p => p.1
  | _ => []

/-- Lines 123-125: look up one remote-context key in the cache and merge its
`[@context]` body into the accumulator; an absent key is silently skipped,
a cache value that cannot be subscripted with `@context` or whose
`@context` body is not a dict raises (TypeError/KeyError). -/
def aggregateStep (cache : List (String × Json)) (acc : List (String × Json))
    (key : String) : Option (List (String × Json)) :=
  match dictLookup cache key with
  | none => some acc
  | some (.obj ce) =>
    match dictLookup ce "@context" with
    | some (.obj terms) => some (dictUpdate acc terms)
    | _ => none
  | some _ => none

/-- Fold of `aggregateStep` over the remote-context keys. -/
def aggregateAux (cache : List (String × Json)) :
    List (String × Json) → List String → Option (List (String × Json))
  | acc, [] => some acc
  | acc, key :: rest =>
    match aggregateStep cache acc key with
    | some acc2 => aggregateAux cache acc2 rest
    | none => none

/-- Lines 121-125: build the merged "known remote terms" dict.  The guard
`if context:` skips the aggregation entirely for an empty (or `None`)
cache. -/
def aggregateRemote (remoteKeys : List String) (cache : List (String × Json)) :
    Option (List (String × Json)) :=
  if cache.isEmpty then some [] else aggregateAux cache [] remoteKeys

/-- A value whose `startswith` check against the `user:` prefix succeeds; on any non-string the
attribute error is caught and ignored (lines 135-140).  The prefix test is
spelt out over the character list so that it evaluates by kernel
reduction. -/
def isUserStr : Json → Bool
  | .str s => List.isPrefixOf "user:".toList s.toList
  | _ => false

/-- One key of a mapping entry survives lines 128-140 iff it is not defined
by the merged remote terms and its value is not a `user:`-prefixed string. -/
def keepKey (remote : List (String × Json)) (p : String × Json) : Bool :=
  !dictMember remote p.1 && !isUserStr p.2

/-- Lines 128-140 applied to one entry of the local context: keys are
removed from mapping entries, every other entry is left untouched. -/
def cleanItem (remote : List (String × Json)) : Json → Json
  | .obj kvs => .obj (kvs.filter (keepKey remote))
  | j => j

/-- `Document._deduplicate_context` (lines 116-149) on a list-valued local
context: aggregate the referenced remote terms, strip duplicated and
`user:`-marked keys from mapping entries, then drop falsy entries
(lines 142-145). -/
def pyDedupList (remoteKeys : List String) (items : List Json)
    (cache : List (String × Json)) : Option (List Json) :=
  match aggregateRemote remoteKeys cache with
  | none => none
  | some remote => some ((items.map (cleanItem remote)).filter truthy)

/-- `Document._deduplicate_context` on an arbitrary `@context` value, as
reached from `Document.__init__`.  Iterating a string or a dict visits no
mapping entries and removes nothing (no character, and no key of a dict
without empty-string keys, is falsy); a dict with an empty-string key hits
`dict.remove` which does not exist (AttributeError); `None`, numbers and
booleans are not iterable (TypeError). -/
def pyDedup (remoteKeys : List String) (userContext : Json)
    (cache : List (String × Json)) : Option Json :=
  match userContext with
  | .arr items => (pyDedupList remoteKeys items cache).map .arr
  | .str s =>
    match aggregateRemote remoteKeys cache with
    | none => none
    | some _ => some (.str s)
  | .obj kvs =>
    match aggregateRemote remoteKeys cache with
    | none => none
    | some _ => if kvs.any (fun p => p.1 = "") then none else some (.obj kvs)
  | _ => none

/-- `_deduplicate_context` as invoked from `Document.__init__` on a
list-valued local context: the remote-context keys are the string entries of
the very same list. -/
def stringEntries (items : List Json) : List String :=
  remoteContextKeys (.arr items)

/-- Deduplication of a list-valued local context against a cache, with the
remote keys taken from the context itself, exactly as `__init__` wires
`self.remote_context_keys` into `_deduplicate_context`. -/
def deduplicateContext (items : List Json) (cache : List (String × Json)) :
    Option (List Json) :=
  pyDedupList (stringEntries items) items cache

/-- Modelled from the spec: step 3 of the DocumentAssembler contract
("Produce `cleanContext = [CANONICAL_ONTOLOGY_URI] ++ deduplicate(localContext,
cache)`").  The prepending of the canonical ontology URI lives in the
template transform of the repository (`articular/template.py`), which is not part
of the sources under verification; the spec types the deduplicated local
context as an ordered sequence, so the prepend is defined on sequences
only. -/
def prependCanonical : Json → Option Json
  | .arr items => some (.arr (.str CANONICAL :: items))
  | _ => none

/-- Python `ctx.append({...})` used in the bare `except:` handlers of lines
100-101 and 107-108: only a list has `append`; on anything else the handler
itself raises AttributeError, which propagates. -/
def appendObj (ctx : Json) (kvs : List (String × Json)) : Option Json :=
  match ctx with
  | .arr items => some (.arr (items ++ [.obj kvs]))
  | _ => none

/-- The `try` body of line 99, `self.document[@context][-1][@base] = base`: succeeds only when the context is a non-empty list whose last element
is a dict (overwriting any existing `@base`); an empty list raises
IndexError, a non-dict last element raises TypeError, a non-list context
raises on the subscript. -/
def tryBase (ctx : Json) (base : String) : Option Json :=
  match ctx with
  | .arr items =>
    match items.getLast? with
    | some (.obj kvs) =>
      some (.arr (items.dropLast ++ [.obj (dictSet kvs "@base" (.str base))]))
    | _ => none
  | _ => none

/-- Lines 98-101: set `@base` on the trailing context element, falling back
to appending `{@base: base}` when the `try` body raises. -/
def setBase (ctx : Json) (base : String) : Option Json :=
  match tryBase ctx base with
  | some r => some r
  | none => appendObj ctx [("@base", .str base)]

/-- Whether `pat` occurs as a contiguous run at some position of the
character list. -/
def strContainsAux (pat : List Char) : List Char → Bool
  | [] => pat.isEmpty
  | c :: rest => List.isPrefixOf pat (c :: rest) || strContainsAux pat rest

/-- Whether the substring occurs in the string (Python `needle in s`). -/
def strContains (s pat : String) : Bool :=
  strContainsAux pat.toList s.toList

/-- Python `Json.str "@vocab" == element` for elements of a list, as
evaluated by `@vocab in xs`: only an equal string compares equal. -/
def hasVocabElem : List Json → Bool
  | [] => false
  | .str s :: rest => if s = "@vocab" then true else hasVocabElem rest
  | _ :: rest => hasVocabElem rest

/-- Python `@vocab in x` (line 105): key membership on a dict, substring
test on a string, element membership on a list; TypeError (`none`) on
anything else. -/
def vocabMem : Json → Option Bool
  | .obj kvs => some (dictMember kvs "@vocab")
  | .str s => some (strContains s "@vocab")
  | .arr xs => some (hasVocabElem xs)
  | _ => none

/-- The `try` body of lines 105-106: when the membership test on the last
context element succeeds and reports `@vocab` present, do nothing; when it
reports absent, the subsequent item assignment succeeds only on a dict last
element; every other path raises into the handler. -/
def tryVocab (ctx : Json) (v : String) : Option Json :=
  match ctx with
  | .arr items =>
    match items.getLast? with
    | some last =>
      match vocabMem last with
      | some true => some ctx
      | some false =>
        match last with
        | .obj kvs =>
          some (.arr (items.dropLast ++ [.obj (dictSet kvs "@vocab" (.str v))]))
        | _ => none
      | none => none
    | none => none
  | _ => none

/-- Lines 103-108: conditionally set `@vocab` on the trailing context
element, falling back to appending `{@vocab: vocab}` when the `try` body
raises. -/
def setVocab (ctx : Json) (v : String) : Option Json :=
  match tryVocab ctx v with
  | some r => some r
  | none => appendObj ctx [("@vocab", .str v)]

/-- Lines 95-101 of `Document.__init__`: a falsy `uri` (Python `None` or
`""`, both embedded as `""`) skips the step; otherwise `id` is set and
`@base` is placed on the context. -/
def applyBase (doc : List (String × Json)) (uri : String) :
    Option (List (String × Json)) :=
  if uri = "" then some doc
  else
    match dictLookup doc "@context" with
    | none => none
    | some ctx =>
      match setBase ctx (uri ++ "#") with
      | none => none
      | some ctx2 => some (dictSet (dictSet doc "id" (.str uri)) "@context" ctx2)

/-- Lines 103-108 of `Document.__init__`: a falsy `vocab` skips the step;
otherwise `@vocab` is placed on the context. -/
def applyVocab (doc : List (String × Json)) (vocab : String) :
    Option (List (String × Json)) :=
  if vocab = "" then some doc
  else
    match dictLookup doc "@context" with
    | none => none
    | some ctx =>
      match setVocab ctx vocab with
      | none => none
      | some ctx2 => some (dictSet doc "@context" ctx2)

/-- `Document.__init__` (lines 84-111) on an already-transformed content
tree: pop the `@context` value (KeyError when absent), extract the
remote-context keys, deduplicate, prepend the canonical ontology URI
(see `prependCanonical`), place `id`/`@base`/`@vocab`, and finally merge the
remaining content keys over the scaffold (`self.document.update(content)`). -/
def assemble (content : List (String × Json)) (uri : String)
    (cache : List (String × Json)) (vocab : String) :
    Option (List (String × Json)) :=
  match dictLookup content "@context" with
  | none => none
  | some userContexts =>
    let rest := dictPop content "@context"
    let remoteKeys := remoteContextKeys userContexts
    match pyDedup remoteKeys userContexts cache with
    | none => none
    | some cleaned =>
      match prependCanonical cleaned with
      | none => none
      | some cleanContext =>
        match applyBase [("@context", cleanContext)] uri with
        | none => none
        | some doc1 =>
          match applyVocab doc1 vocab with
          | none => none
          | some doc2 => some (dictUpdate doc2 rest)

/-- The state of `self.document` after evaluating the `framed` property
(lines 151-169).  `context = self.document[@context]` aliases the context
list held by the document itself, so `context[0] = ctx[@context]` (line 161)
replaces the first context element of the document with the loaded ontology
context body; building the frame then reads `self.document[id]` (KeyError
when absent).  The later restore on line 168 assigns into the freshly built
framed output (`jsonld.frame` of `pyld` constructs a new tree), not into the
document, so the document keeps the mutated first element.  The ontology
body stands in for the parsed `docs/ns/v1/articular.json`, which is not
among the sources; only the fact that line 161 stores it unchanged matters
here. -/
def framedDocumentAfter (doc : List (String × Json)) (ontologyBody : Json) :
    Option (List (String × Json)) :=
  match dictLookup doc "@context" with
  | none => none
  | some (.arr (_ :: restCtx)) =>
    let doc2 := dictSet doc "@context" (.arr (ontologyBody :: restCtx))
    match dictLookup doc2 "id" with
    | none => none
    | some _ => some doc2
  | some _ => none

/-- Whether a referenced cache entry defines the given term: the cache maps
`s` to an object whose `@context` body is an object containing key `k`. -/
def cacheDefines (cache : List (String × Json)) (s k : String) : Bool :=
  match dictLookup cache s with
  | some (.obj ce) =>
    match dictLookup ce "@context" with
    | some (.obj terms) => dictMember terms k
    | _ => false
  | _ => false

/-- Whether aggregating one remote-context key succeeds: the key is either
absent from the cache or mapped to an object whose `@context` body is an
object. -/
def stepOk (cache : List (String × Json)) (s : String) : Bool :=
  match dictLookup cache s with
  | none => true
  | some (.obj ce) =>
    match dictLookup ce "@context" with
    | some (.obj _) => true
    | _ => false
  | some _ => false

/-- A context entry carrying `@base` or `@vocab`: a marker mapping. -/
def isMarker : Json → Bool
  | .obj kvs => dictMember kvs "@base" || dictMember kvs "@vocab"
  | _ => false

/-- Statement-side description of the vocab-placement step on a non-empty
context list with last element `last`, written from the amended reading of
the spec: a mapping lacking `@vocab` gains it in place; a mapping already
defining `@vocab`, a string containing the substring `@vocab`, and a list
containing the element `@vocab` are left unchanged (the supplied vocab is
not recorded); every other last element causes `{@vocab: v}` to be
appended. -/
def vocabStepSpec (items : List Json) (last : Json) (v : String) : Json :=
  match last with
  | .obj kvs =>
    if dictMember kvs "@vocab" then .arr items
    else .arr (items.dropLast ++ [.obj (dictSet kvs "@vocab" (.str v))])
  | .str s =>
    if strContains s "@vocab" then .arr items
    else .arr (items ++ [.obj [("@vocab", .str v)]])
  | .arr xs =>
    if hasVocabElem xs then .arr items
    else .arr (items ++ [.obj [("@vocab", .str v)]])
  | _ => .arr (items ++ [.obj [("@vocab", .str v)]])

/-! ### Dictionary lemmas -/

theorem dictLookup_dictSet_self (d : List (String × Json)) (k : String) (v : Json) :
    dictLookup (dictSet d k v) k = some v := by
  induction d with
  | nil => simp [dictSet, dictLookup]
  | cons p rest ih =>
    by_cases h : p.1 = k
    · simp [dictSet, h, dictLookup]
    · simp [dictSet, h, dictLookup, ih]

theorem dictLookup_dictSet_ne (d : List (String × Json)) (k kq : String) (v : Json)
    (h : kq ≠ k) : dictLookup (dictSet d k v) kq = dictLookup d kq := by
  induction d with
  | nil => simp [dictSet, dictLookup, Ne.symm h]
  | cons p rest ih =>
    by_cases hp : p.1 = k
    · simp [dictSet, hp, dictLookup, Ne.symm h]
    · simp only [dictSet, hp, if_false, dictLookup, ih]

theorem dictMember_cons (p : String × Json) (rest : List (String × Json)) (k : String) :
    dictMember (p :: rest) k = true ↔ p.1 = k ∨ dictMember rest k = true := by
  by_cases h : p.1 = k <;> simp [dictMember, h]

theorem dictMember_dictSet (d : List (String × Json)) (k kq : String) (v : Json) :
    dictMember (dictSet d k v) kq = true ↔ kq = k ∨ dictMember d kq = true := by
  induction d with
  | nil =>
    by_cases hq : kq = k
    · subst hq; simp [dictSet, dictMember]
    · simp [dictSet, dictMember, hq, show ¬ k = kq from fun h => hq h.symm]
  | cons p rest ih =>
    by_cases hp : p.1 = k
    · by_cases hq : kq = k
      · subst hq; simp [dictSet, hp, dictMember]
      · simp [dictSet, dictMember, hp, hq, show ¬ k = kq from fun h => hq h.symm]
    · by_cases hpq : p.1 = kq
      · have hqk : ¬ kq = k := fun h => hp (hpq.trans h)
        simp [dictSet, dictMember, hp, hpq, hqk]
      · simp only [dictSet, hp, if_false]
        rw [show dictMember (p :: dictSet rest k v) kq =
              if p.1 = kq then true else dictMember (dictSet rest k v) kq from rfl,
            if_neg hpq, ih,
            show dictMember (p :: rest) kq =
              if p.1 = kq then true else dictMember rest kq from rfl,
            if_neg hpq]

theorem dictMember_dictUpdate (d o : List (String × Json)) (k : String) :
    dictMember (dictUpdate d o) k = true ↔
      dictMember d k = true ∨ dictMember o k = true := by
  induction o generalizing d with
  | nil => simp [dictUpdate, dictMember]
  | cons q o' ih =>
    show dictMember (dictUpdate (dictSet d q.1 q.2) o') k = true ↔ _
    rw [ih, dictMember_dictSet, dictMember_cons]
    tauto

theorem dictLookup_dictUpdate_of_not_mem (d o : List (String × Json)) (k : String)
    (h : dictMember o k = false) :
    dictLookup (dictUpdate d o) k = dictLookup d k := by
  induction o generalizing d with
  | nil => rfl
  | cons q o' ih =>
    have hstep : dictMember (q :: o') k = if q.1 = k then true else dictMember o' k := rfl
    have hq : ¬ q.1 = k := by
      intro he
      rw [hstep, if_pos he] at h
      exact Bool.noConfusion h
    have ho' : dictMember o' k = false := by
      rw [hstep, if_neg hq] at h
      exact h
    show dictLookup (dictUpdate (dictSet d q.1 q.2) o') k = dictLookup d k
    rw [ih _ ho', dictLookup_dictSet_ne _ _ _ _ (fun he => hq he.symm)]

theorem dictMember_iff_mem_map (d : List (String × Json)) (k : String) :
    dictMember d k = true ↔ k ∈ d.map Prod.fst := by
  induction d with
  | nil => simp [dictMember]
  | cons p rest ih =>
    rw [dictMember_cons, List.map_cons, List.mem_cons, ih]
    constructor
    · rintro (h | h)
      · exact Or.inl h.symm
      · exact Or.inr h
    · rintro (h | h)
      · exact Or.inl h.symm
      · exact Or.inr h

theorem dictMember_dictPop_of_nodup (d : List (String × Json)) (k : String)
    (h : (d.map Prod.fst).Nodup) : dictMember (dictPop d k) k = false := by
  induction d with
  | nil => rfl
  | cons p rest ih =>
    simp only [List.map_cons, List.nodup_cons] at h
    by_cases hp : p.1 = k
    · show dictMember (if p.1 = k then rest else p :: dictPop rest k) k = false
      rw [if_pos hp]
      rw [Bool.eq_false_iff]
      intro hc
      exact h.1 (hp ▸ (dictMember_iff_mem_map rest k).1 hc)
    · show dictMember (if p.1 = k then rest else p :: dictPop rest k) k = false
      rw [if_neg hp]
      have := ih h.2
      simp [dictMember, hp, this]

/-! ### Remote-term aggregation lemmas -/

theorem aggregateStep_member (cache acc acc2 : List (String × Json)) (key : String)
    (h : aggregateStep cache acc key = some acc2) (k : String) :
    dictMember acc2 k = true ↔
      dictMember acc k = true ∨ cacheDefines cache key k = true := by
  cases hl : dictLookup cache key with
  | none =>
    simp only [aggregateStep, hl] at h
    obtain rfl : acc = acc2 := by injection h
    simp [cacheDefines, hl]
  | some v =>
    cases v with
    | obj ce =>
      cases hc : dictLookup ce "@context" with
      | none => simp [aggregateStep, hl, hc] at h
      | some w =>
        cases w with
        | obj terms =>
          simp only [aggregateStep, hl, hc] at h
          obtain rfl : dictUpdate acc terms = acc2 := by injection h
          simp [cacheDefines, hl, hc, dictMember_dictUpdate]
        | null => simp [aggregateStep, hl, hc] at h
        | bool b => simp [aggregateStep, hl, hc] at h
        | num n => simp [aggregateStep, hl, hc] at h
        | str s => simp [aggregateStep, hl, hc] at h
        | arr xs => simp [aggregateStep, hl, hc] at h
    | null => simp [aggregateStep, hl] at h
    | bool b => simp [aggregateStep, hl] at h
    | num n => simp [aggregateStep, hl] at h
    | str s => simp [aggregateStep, hl] at h
    | arr xs => simp [aggregateStep, hl] at h

theorem stepOk_of_aggregateStep (cache acc acc2 : List (String × Json)) (key : String)
    (h : aggregateStep cache acc key = some acc2) : stepOk cache key = true := by
  cases hl : dictLookup cache key with
  | none => simp [stepOk, hl]
  | some v =>
    cases v with
    | obj ce =>
      cases hc : dictLookup ce "@context" with
      | none => simp [aggregateStep, hl, hc] at h
      | some w =>
        cases w with
        | obj terms => simp [stepOk, hl, hc]
        | null => simp [aggregateStep, hl, hc] at h
        | bool b => simp [aggregateStep, hl, hc] at h
        | num n => simp [aggregateStep, hl, hc] at h
        | str s => simp [aggregateStep, hl, hc] at h
        | arr xs => simp [aggregateStep, hl, hc] at h
    | null => simp [aggregateStep, hl] at h
    | bool b => simp [aggregateStep, hl] at h
    | num n => simp [aggregateStep, hl] at h
    | str s => simp [aggregateStep, hl] at h
    | arr xs => simp [aggregateStep, hl] at h

theorem aggregateStep_isSome_of_stepOk (cache acc : List (String × Json)) (key : String)
    (h : stepOk cache key = true) : ∃ acc2, aggregateStep cache acc key = some acc2 := by
  cases hl : dictLookup cache key with
  | none => exact ⟨acc, by simp [aggregateStep, hl]⟩
  | some v =>
    cases v with
    | obj ce =>
      cases hc : dictLookup ce "@context" with
      | none => simp [stepOk, hl, hc] at h
      | some w =>
        cases w with
        | obj terms => exact ⟨dictUpdate acc terms, by simp [aggregateStep, hl, hc]⟩
        | null => simp [stepOk, hl, hc] at h
        | bool b => simp [stepOk, hl, hc] at h
        | num n => simp [stepOk, hl, hc] at h
        | str s => simp [stepOk, hl, hc] at h
        | arr xs => simp [stepOk, hl, hc] at h
    | null => simp [stepOk, hl] at h
    | bool b => simp [stepOk, hl] at h
    | num n => simp [stepOk, hl] at h
    | str s => simp [stepOk, hl] at h
    | arr xs => simp [stepOk, hl] at h

theorem aggregateAux_member (cache : List (String × Json)) (keys : List String) :
    ∀ acc remote, aggregateAux cache acc keys = some remote → ∀ k,
      (dictMember remote k = true ↔
        dictMember acc k = true ∨ ∃ s ∈ keys, cacheDefines cache s k = true) := by
  induction keys with
  | nil =>
    intro acc remote h k
    obtain rfl : acc = remote := by injection h
    simp
  | cons key rest ih =>
    intro acc remote h k
    unfold aggregateAux at h
    cases hs : aggregateStep cache acc key with
    | none => rw [hs] at h; exact Option.noConfusion h
    | some acc2 =>
      rw [hs] at h
      rw [ih acc2 remote h k, aggregateStep_member cache acc acc2 key hs k]
      constructor
      · rintro ((h1 | h1) | ⟨s, hmem, hcd⟩)
        · exact Or.inl h1
        · exact Or.inr ⟨key, List.mem_cons_self key rest, h1⟩
        · exact Or.inr ⟨s, List.mem_cons_of_mem _ hmem, hcd⟩
      · rintro (h1 | ⟨s, hmem, hcd⟩)
        · exact Or.inl (Or.inl h1)
        · rcases List.mem_cons.1 hmem with rfl | hmem'
          · exact Or.inl (Or.inr hcd)
          · exact Or.inr ⟨s, hmem', hcd⟩

theorem stepOk_of_aggregateAux (cache : List (String × Json)) (keys : List String) :
    ∀ acc remote, aggregateAux cache acc keys = some remote →
      ∀ s ∈ keys, stepOk cache s = true := by
  induction keys with
  | nil => intro acc remote _ s hmem; exact absurd hmem (List.not_mem_nil s)
  | cons key rest ih =>
    intro acc remote h s hmem
    unfold aggregateAux at h
    cases hs : aggregateStep cache acc key with
    | none => rw [hs] at h; exact Option.noConfusion h
    | some acc2 =>
      rw [hs] at h
      rcases List.mem_cons.1 hmem with rfl | hmem'
      · exact stepOk_of_aggregateStep cache acc acc2 s hs
      · exact ih acc2 remote h s hmem'

theorem aggregateAux_isSome_of_stepOk (cache : List (String × Json)) (keys : List String)
    (h : ∀ s ∈ keys, stepOk cache s = true) :
    ∀ acc, ∃ remote, aggregateAux cache acc keys = some remote := by
  induction keys with
  | nil => intro acc; exact ⟨acc, rfl⟩
  | cons key rest ih =>
    intro acc
    obtain ⟨acc2, hs⟩ := aggregateStep_isSome_of_stepOk cache acc key
      (h key (List.mem_cons_self key rest))
    obtain ⟨remote, hr⟩ := ih (fun s hmem => h s (List.mem_cons_of_mem _ hmem)) acc2
    refine ⟨remote, ?_⟩
    unfold aggregateAux
    rw [hs]
    exact hr

theorem aggregateRemote_member (remoteKeys : List String)
    (cache : List (String × Json)) (remote : List (String × Json))
    (h : aggregateRemote remoteKeys cache = some remote) (k : String) :
    dictMember remote k = true ↔
      ∃ s ∈ remoteKeys, cacheDefines cache s k = true := by
  unfold aggregateRemote at h
  by_cases hc : cache.isEmpty
  · rw [if_pos hc] at h
    obtain rfl : ([] : List (String × Json)) = remote := by injection h
    obtain rfl : cache = [] := List.isEmpty_iff.1 hc
    simp [dictMember, cacheDefines, dictLookup]
  · rw [if_neg hc] at h
    have := aggregateAux_member cache remoteKeys [] remote h k
    simpa [dictMember] using this

/-! ### Deduplication structure lemmas -/

theorem pyDedupList_some (rk : List String) (items : List Json)
    (cache : List (String × Json)) (out : List Json)
    (h : pyDedupList rk items cache = some out) :
    ∃ remote, aggregateRemote rk cache = some remote ∧
      out = (items.map (cleanItem remote)).filter truthy := by
  unfold pyDedupList at h
  cases hr : aggregateRemote rk cache with
  | none => rw [hr] at h; exact Option.noConfusion h
  | some remote =>
    rw [hr] at h
    refine ⟨remote, rfl, ?_⟩
    injection h with h2
    exact h2.symm

theorem mem_dedup_result (remote : List (String × Json)) (items : List Json) (y : Json) :
    y ∈ (items.map (cleanItem remote)).filter truthy ↔
      truthy y = true ∧ ∃ x ∈ items, y = cleanItem remote x := by
  rw [List.mem_filter, List.mem_map]
  constructor
  · rintro ⟨⟨x, hx, rfl⟩, ht⟩
    exact ⟨ht, x, hx, rfl⟩
  · rintro ⟨ht, x, hx, rfl⟩
    exact ⟨⟨x, hx, rfl⟩, ht⟩

theorem cleanItem_eq_obj (remote : List (String × Json)) (x : Json)
    (kvs2 : List (String × Json)) (h : cleanItem remote x = .obj kvs2) :
    ∃ kvs, x = .obj kvs ∧ kvs2 = kvs.filter (keepKey remote) := by
  cases x with
  | obj kvs =>
    refine ⟨kvs, rfl, ?_⟩
    unfold cleanItem at h
    injection h with h2
    exact h2.symm
  | null => exact Json.noConfusion h
  | bool b => exact Json.noConfusion h
  | num n => exact Json.noConfusion h
  | str s => exact Json.noConfusion h
  | arr xs => exact Json.noConfusion h

theorem dictMember_of_filter (kvs : List (String × Json)) (f : String × Json → Bool)
    (k : String) (h : dictMember (kvs.filter f) k = true) : dictMember kvs k = true := by
  induction kvs with
  | nil => simp [List.filter_nil, dictMember] at h
  | cons p rest ih =>
    rw [dictMember_cons]
    by_cases hf : f p = true
    · rw [List.filter_cons_of_pos hf, dictMember_cons] at h
      rcases h with h | h
      · exact Or.inl h
      · exact Or.inr (ih h)
    · rw [List.filter_cons_of_neg hf] at h
      exact Or.inr (ih h)

theorem deduplicateContext_some (items : List Json) (cache : List (String × Json))
    (out : List Json) (h : deduplicateContext items cache = some out) :
    ∃ remote, aggregateRemote (stringEntries items) cache = some remote ∧
      out = (items.map (cleanItem remote)).filter truthy :=
  pyDedupList_some _ _ _ _ h

theorem mem_stringEntries (items : List Json) (s : String) :
    s ∈ stringEntries items ↔ Json.str s ∈ items := by
  unfold stringEntries remoteContextKeys
  rw [List.mem_filterMap]
  constructor
  · rintro ⟨a, ha, hf⟩
    cases a with
    | str t =>
      obtain rfl : t = s := by injection hf
      exact ha
    | null => exact Option.noConfusion hf
    | bool b => exact Option.noConfusion hf
    | num n => exact Option.noConfusion hf
    | arr xs => exact Option.noConfusion hf
    | obj kvs => exact Option.noConfusion hf
  · intro hs
    exact ⟨.str s, hs, rfl⟩

theorem cleanItem_eq_str (remote : List (String × Json)) (x : Json) (s : String)
    (h : cleanItem remote x = .str s) : x = .str s := by
  cases x with
  | str t => exact h
  | null => exact Json.noConfusion h
  | bool b => exact Json.noConfusion h
  | num n => exact Json.noConfusion h
  | arr xs => exact Json.noConfusion h
  | obj kvs => exact Json.noConfusion h

theorem listMapSelf {α : Type} (f : α → α) :
    ∀ (l : List α), (∀ x ∈ l, f x = x) → l.map f = l
  | [], _ => rfl
  | x :: xs, h => by
    rw [List.map_cons, h x (List.mem_cons_self x xs),
      listMapSelf f xs (fun y hy => h y (List.mem_cons_of_mem x hy))]

/-! ### Assembly structure lemmas -/

theorem assemble_parts (content : List (String × Json)) (uri : String)
    (cache : List (String × Json)) (vocab : String) (doc : List (String × Json))
    (h : assemble content uri cache vocab = some doc) :
    ∃ uc cleaned cc doc1 doc2,
      dictLookup content "@context" = some uc ∧
      pyDedup (remoteContextKeys uc) uc cache = some cleaned ∧
      prependCanonical cleaned = some cc ∧
      applyBase [("@context", cc)] uri = some doc1 ∧
      applyVocab doc1 vocab = some doc2 ∧
      doc = dictUpdate doc2 (dictPop content "@context") := by
  cases h1 : dictLookup content "@context" with
  | none =>
    simp only [assemble, h1] at h
    exact Option.noConfusion h
  | some uc =>
    cases h2 : pyDedup (remoteContextKeys uc) uc cache with
    | none =>
      simp only [assemble, h1, h2] at h
      exact Option.noConfusion h
    | some cleaned =>
      cases h3 : prependCanonical cleaned with
      | none =>
        simp only [assemble, h1, h2, h3] at h
        exact Option.noConfusion h
      | some cc =>
        cases h4 : applyBase [("@context", cc)] uri with
        | none =>
          simp only [assemble, h1, h2, h3, h4] at h
          exact Option.noConfusion h
        | some doc1 =>
          cases h5 : applyVocab doc1 vocab with
          | none =>
            simp only [assemble, h1, h2, h3, h4, h5] at h
            exact Option.noConfusion h
          | some doc2 =>
            simp only [assemble, h1, h2, h3, h4, h5, Option.some.injEq] at h
            exact ⟨uc, cleaned, cc, doc1, doc2, rfl, h2, h3, h4, h5, h.symm⟩

theorem prependCanonical_some (cleaned cc : Json)
    (h : prependCanonical cleaned = some cc) :
    ∃ ci, cleaned = .arr ci ∧ cc = .arr (.str CANONICAL :: ci) := by
  cases cleaned with
  | arr ci =>
    refine ⟨ci, rfl, ?_⟩
    simp only [prependCanonical, Option.some.injEq] at h
    exact h.symm
  | null => exact Option.noConfusion h
  | bool b => exact Option.noConfusion h
  | num n => exact Option.noConfusion h
  | str s => exact Option.noConfusion h
  | obj kvs => exact Option.noConfusion h

theorem pyDedup_arr (rk : List String) (items : List Json)
    (cache : List (String × Json)) (cleaned : Json)
    (h : pyDedup rk (.arr items) cache = some cleaned) :
    ∃ ci, cleaned = .arr ci ∧ pyDedupList rk items cache = some ci := by
  cases h2 : pyDedupList rk items cache with
  | none =>
    simp only [pyDedup, h2, Option.map_none'] at h
    exact Option.noConfusion h
  | some ci =>
    simp only [pyDedup, h2, Option.map_some', Option.some.injEq] at h
    exact ⟨ci, h.symm, rfl⟩

theorem applyBase_skip (doc : List (String × Json)) : applyBase doc "" = some doc := by
  simp [applyBase]

theorem applyVocab_skip (doc : List (String × Json)) : applyVocab doc "" = some doc := by
  simp [applyVocab]

theorem applyBase_ctx (cc : Json) (uri : String) (doc1 : List (String × Json))
    (huri : ¬ uri = "") (h : applyBase [("@context", cc)] uri = some doc1) :
    ∃ cc2, setBase cc (uri ++ "#") = some cc2 ∧
      doc1 = [("@context", cc2), ("id", Json.str uri)] := by
  cases hs : setBase cc (uri ++ "#") with
  | none =>
    simp only [applyBase, huri,
      show dictLookup [("@context", cc)] "@context" = some cc from rfl, hs,
      if_false] at h
    exact Option.noConfusion h
  | some cc2 =>
    simp only [applyBase, huri,
      show dictLookup [("@context", cc)] "@context" = some cc from rfl, hs,
      if_false, Option.some.injEq] at h
    refine ⟨cc2, rfl, ?_⟩
    rw [← h]
    rfl

theorem applyVocab_ctx (cc : Json) (tail : List (String × Json)) (vocab : String)
    (doc2 : List (String × Json)) (hv : ¬ vocab = "")
    (h : applyVocab (("@context", cc) :: tail) vocab = some doc2) :
    ∃ cc3, setVocab cc vocab = some cc3 ∧ doc2 = ("@context", cc3) :: tail := by
  cases hs : setVocab cc vocab with
  | none =>
    simp only [applyVocab, hv,
      show dictLookup (("@context", cc) :: tail) "@context" = some cc from rfl, hs,
      if_false] at h
    exact Option.noConfusion h
  | some cc3 =>
    simp only [applyVocab, hv,
      show dictLookup (("@context", cc) :: tail) "@context" = some cc from rfl, hs,
      if_false, Option.some.injEq] at h
    refine ⟨cc3, rfl, ?_⟩
    rw [← h]
    rfl

theorem setBase_head (c : String) (items : List Json) (b : String) (r : Json)
    (h : setBase (.arr (.str c :: items)) b = some r) :
    ∃ items2, r = .arr (.str c :: items2) := by
  rcases List.eq_nil_or_concat items with rfl | ⟨l2, a, rfl⟩
  · rw [show setBase (Json.arr [Json.str c]) b =
        some (.arr [.str c, .obj [("@base", .str b)]]) from rfl] at h
    obtain h2 : (Json.arr [Json.str c, Json.obj [("@base", Json.str b)]]) = r := by
      injection h
    exact ⟨[Json.obj [("@base", Json.str b)]], h2.symm⟩
  · rw [List.concat_eq_append] at h
    have hlast : (Json.str c :: (l2 ++ [a])).getLast? = some a := by
      rw [← List.cons_append]
      exact List.getLast?_concat _
    have hdrop : (Json.str c :: (l2 ++ [a])).dropLast = Json.str c :: l2 := by
      rw [← List.cons_append]
      exact List.dropLast_concat
    cases a with
    | obj kvs =>
      simp only [setBase, tryBase, hlast, hdrop, Option.some.injEq] at h
      exact ⟨l2 ++ [Json.obj (dictSet kvs "@base" (Json.str b))], by
        rw [← h]
        simp [List.cons_append]⟩
    | null =>
      simp only [setBase, tryBase, hlast, appendObj, Option.some.injEq] at h
      exact ⟨(l2 ++ [Json.null]) ++ [Json.obj [("@base", Json.str b)]], by
        rw [← h]
        simp [List.cons_append]⟩
    | bool b2 =>
      simp only [setBase, tryBase, hlast, appendObj, Option.some.injEq] at h
      exact ⟨(l2 ++ [Json.bool b2]) ++ [Json.obj [("@base", Json.str b)]], by
        rw [← h]
        simp [List.cons_append]⟩
    | num n =>
      simp only [setBase, tryBase, hlast, appendObj, Option.some.injEq] at h
      exact ⟨(l2 ++ [Json.num n]) ++ [Json.obj [("@base", Json.str b)]], by
        rw [← h]
        simp [List.cons_append]⟩
    | str s =>
      simp only [setBase, tryBase, hlast, appendObj, Option.some.injEq] at h
      exact ⟨(l2 ++ [Json.str s]) ++ [Json.obj [("@base", Json.str b)]], by
        rw [← h]
        simp [List.cons_append]⟩
    | arr xs =>
      simp only [setBase, tryBase, hlast, appendObj, Option.some.injEq] at h
      exact ⟨(l2 ++ [Json.arr xs]) ++ [Json.obj [("@base", Json.str b)]], by
        rw [← h]
        simp [List.cons_append]⟩

theorem setVocab_head (c : String) (items : List Json) (v : String) (r : Json)
    (h : setVocab (.arr (.str c :: items)) v = some r) :
    ∃ items2, r = .arr (.str c :: items2) := by
  rcases List.eq_nil_or_concat items with rfl | ⟨l2, a, rfl⟩
  · cases hsc : strContains c "@vocab" with
    | true =>
      have hv : setVocab (Json.arr [Json.str c]) v = some (Json.arr [Json.str c]) := by
        simp [setVocab, tryVocab, vocabMem, hsc]
      rw [hv] at h
      obtain h2 : Json.arr [Json.str c] = r := by injection h
      exact ⟨[], h2.symm⟩
    | false =>
      have hv : setVocab (Json.arr [Json.str c]) v =
          some (Json.arr [Json.str c, Json.obj [("@vocab", Json.str v)]]) := by
        simp [setVocab, tryVocab, vocabMem, hsc, appendObj]
      rw [hv] at h
      obtain h2 : Json.arr [Json.str c, Json.obj [("@vocab", Json.str v)]] = r := by
        injection h
      exact ⟨[Json.obj [("@vocab", Json.str v)]], h2.symm⟩
  · rw [List.concat_eq_append] at h
    have hlast : (Json.str c :: (l2 ++ [a])).getLast? = some a := by
      rw [← List.cons_append]
      exact List.getLast?_concat _
    have hdrop : (Json.str c :: (l2 ++ [a])).dropLast = Json.str c :: l2 := by
      rw [← List.cons_append]
      exact List.dropLast_concat
    cases a with
    | obj kvs =>
      cases hm : dictMember kvs "@vocab" with
      | true =>
        simp only [setVocab, tryVocab, hlast, vocabMem, hm, Option.some.injEq] at h
        exact ⟨l2 ++ [Json.obj kvs], h.symm⟩
      | false =>
        simp only [setVocab, tryVocab, hlast, hdrop, vocabMem, hm,
          Option.some.injEq] at h
        exact ⟨l2 ++ [Json.obj (dictSet kvs "@vocab" (Json.str v))], by
          rw [← h]
          simp [List.cons_append]⟩
    | str s =>
      cases hm : strContains s "@vocab" with
      | true =>
        simp only [setVocab, tryVocab, hlast, vocabMem, hm, Option.some.injEq] at h
        exact ⟨l2 ++ [Json.str s], h.symm⟩
      | false =>
        simp only [setVocab, tryVocab, hlast, vocabMem, hm, appendObj,
          Option.some.injEq] at h
        exact ⟨(l2 ++ [Json.str s]) ++ [Json.obj [("@vocab", Json.str v)]], by
          rw [← h]
          simp [List.cons_append]⟩
    | arr xs =>
      cases hm : hasVocabElem xs with
      | true =>
        simp only [setVocab, tryVocab, hlast, vocabMem, hm, Option.some.injEq] at h
        exact ⟨l2 ++ [Json.arr xs], h.symm⟩
      | false =>
        simp only [setVocab, tryVocab, hlast, vocabMem, hm, appendObj,
          Option.some.injEq] at h
        exact ⟨(l2 ++ [Json.arr xs]) ++ [Json.obj [("@vocab", Json.str v)]], by
          rw [← h]
          simp [List.cons_append]⟩
    | null =>
      simp only [setVocab, tryVocab, hlast, vocabMem, appendObj,
        Option.some.injEq] at h
      exact ⟨(l2 ++ [Json.null]) ++ [Json.obj [("@vocab", Json.str v)]], by
        rw [← h]
        simp [List.cons_append]⟩
    | bool b2 =>
      simp only [setVocab, tryVocab, hlast, vocabMem, appendObj,
        Option.some.injEq] at h
      exact ⟨(l2 ++ [Json.bool b2]) ++ [Json.obj [("@vocab", Json.str v)]], by
        rw [← h]
        simp [List.cons_append]⟩
    | num n =>
      simp only [setVocab, tryVocab, hlast, vocabMem, appendObj,
        Option.some.injEq] at h
      exact ⟨(l2 ++ [Json.num n]) ++ [Json.obj [("@vocab", Json.str v)]], by
        rw [← h]
        simp [List.cons_append]⟩

/-! ### Claim theorems on deduplication -/

/-- C2: for every local context containing a mapping entry with exactly one
key, if that key is also defined by a remote context referenced by a string
entry of the local context and present in the supplied cache, then after
deduplication that mapping entry is entirely absent from the returned
context sequence (the key is removed and the emptied mapping is dropped). -/
theorem dedup_removes_remote_duplicated_entry (items : List Json)
    (cache : List (String × Json)) (out : List Json) (k s : String) (v : Json)
    (_hobj : Json.obj [(k, v)] ∈ items)
    (hstr : Json.str s ∈ items)
    (hcd : cacheDefines cache s k = true)
    (h : deduplicateContext items cache = some out) :
    Json.obj [(k, v)] ∉ out := by
  obtain ⟨remote, hagg, rfl⟩ := deduplicateContext_some items cache out h
  intro hc
  obtain ⟨hmf, _⟩ := List.mem_filter.1 hc
  obtain ⟨x, _, hcl⟩ := List.mem_map.1 hmf
  obtain ⟨kvs, rfl, hkvs⟩ := cleanItem_eq_obj remote x _ hcl
  have hpair : (k, v) ∈ kvs.filter (keepKey remote) := by
    rw [← hkvs]
    exact List.mem_cons_self _ _
  have hkeep : keepKey remote (k, v) = true := (List.mem_filter.1 hpair).2
  have hmem : dictMember remote k = true :=
    (aggregateRemote_member _ _ _ hagg k).2
      ⟨s, (mem_stringEntries items s).2 hstr, hcd⟩
  unfold keepKey at hkeep
  rw [hmem] at hkeep
  simp at hkeep

/-- C2 witness: a context `[c, {t: u}]` whose term `t` is defined by
the cached remote context `c` loses the mapping entry entirely. -/
theorem dedup_removes_remote_duplicated_entry_witness :
    deduplicateContext [Json.str "c", Json.obj [("t", Json.str "u")]]
        [("c", Json.obj [("@context", Json.obj [("t", Json.obj [])])])] =
      some [Json.str "c"] ∧
    Json.obj [("t", Json.str "u")] ∉ [Json.str "c"] :=
  ⟨rfl,
    dedup_removes_remote_duplicated_entry
      [Json.str "c", Json.obj [("t", Json.str "u")]]
      [("c", Json.obj [("@context", Json.obj [("t", Json.obj [])])])]
      [Json.str "c"] "t" "c" (Json.str "u")
      (List.mem_cons_of_mem _ (List.mem_cons_self _ _))
      (List.mem_cons_self _ _)
      rfl rfl⟩

/-- C8: every mapping entry of the local context in which the value of every
key is a string beginning with `user:` is removed entirely from the
deduplicated output context. -/
theorem dedup_removes_user_only_entry (items : List Json)
    (cache : List (String × Json)) (out : List Json) (kvs : List (String × Json))
    (_hmem : Json.obj kvs ∈ items)
    (huser : ∀ p ∈ kvs, isUserStr p.2 = true)
    (h : deduplicateContext items cache = some out) :
    Json.obj kvs ∉ out := by
  obtain ⟨remote, _, rfl⟩ := deduplicateContext_some items cache out h
  intro hc
  obtain ⟨hmf, ht⟩ := List.mem_filter.1 hc
  obtain ⟨x, _, hcl⟩ := List.mem_map.1 hmf
  obtain ⟨kvs0, rfl, hkvs⟩ := cleanItem_eq_obj remote x kvs hcl
  have hne : kvs ≠ [] := by
    intro he
    rw [he] at ht
    simp [truthy] at ht
  obtain ⟨p, hp⟩ := List.exists_mem_of_ne_nil kvs hne
  have hkeep : keepKey remote p = true := (List.mem_filter.1 (hkvs ▸ hp)).2
  unfold keepKey at hkeep
  rw [huser p hp] at hkeep
  simp at hkeep

/-- C8 witness: the entry `{a: user:x, b: user:y}` disappears from
the deduplicated context. -/
theorem dedup_removes_user_only_entry_witness :
    deduplicateContext
        [Json.obj [("a", Json.str "user:x"), ("b", Json.str "user:y")], Json.str "s"]
        [] =
      some [Json.str "s"] ∧
    Json.obj [("a", Json.str "user:x"), ("b", Json.str "user:y")] ∉ [Json.str "s"] :=
  ⟨rfl,
    dedup_removes_user_only_entry
      [Json.obj [("a", Json.str "user:x"), ("b", Json.str "user:y")], Json.str "s"]
      [] [Json.str "s"]
      [("a", Json.str "user:x"), ("b", Json.str "user:y")]
      (List.mem_cons_self _ _)
      (by
        intro p hp
        rcases List.mem_cons.1 hp with rfl | hp'
        · rfl
        · rcases List.mem_cons.1 hp' with rfl | hp''
          · rfl
          · exact absurd hp'' (List.not_mem_nil p))
      rfl⟩

/-- C9: deduplication is idempotent: deduplicating an already-deduplicated
context against the same cache yields the same sequence with no further
changes. -/
theorem dedup_idempotent (items : List Json) (cache : List (String × Json))
    (out : List Json) (h : deduplicateContext items cache = some out) :
    deduplicateContext out cache = some out := by
  obtain ⟨remote, hagg, hEq⟩ := deduplicateContext_some items cache out h
  have hsubstr : ∀ s, s ∈ stringEntries out → s ∈ stringEntries items := by
    intro s hs
    have hy : Json.str s ∈ out := (mem_stringEntries out s).1 hs
    rw [hEq] at hy
    obtain ⟨hmf, _⟩ := List.mem_filter.1 hy
    obtain ⟨x, hx, hcl⟩ := List.mem_map.1 hmf
    obtain rfl : x = Json.str s := cleanItem_eq_str remote x s hcl
    exact (mem_stringEntries items s).2 hx
  obtain ⟨remote2, hagg2, hsub⟩ :
      ∃ remote2, aggregateRemote (stringEntries out) cache = some remote2 ∧
        ∀ k, dictMember remote2 k = true → dictMember remote k = true := by
    by_cases hce : cache.isEmpty
    · refine ⟨[], ?_, ?_⟩
      · unfold aggregateRemote
        rw [if_pos hce]
      · intro k hk
        simp [dictMember] at hk
    · unfold aggregateRemote at hagg
      rw [if_neg hce] at hagg
      have hok : ∀ s ∈ stringEntries out, stepOk cache s = true := fun s hs =>
        stepOk_of_aggregateAux cache (stringEntries items) [] remote hagg s (hsubstr s hs)
      obtain ⟨remote2, hagg2'⟩ :=
        aggregateAux_isSome_of_stepOk cache (stringEntries out) hok []
      refine ⟨remote2, ?_, ?_⟩
      · unfold aggregateRemote
        rw [if_neg hce]
        exact hagg2'
      · intro k hk
        rcases (aggregateAux_member cache (stringEntries out) [] remote2 hagg2' k).1 hk
          with hk0 | ⟨s, hs, hcd⟩
        · simp [dictMember] at hk0
        · exact (aggregateAux_member cache (stringEntries items) [] remote hagg k).2
            (Or.inr ⟨s, hsubstr s hs, hcd⟩)
  have hfix : ∀ y ∈ out, cleanItem remote2 y = y := by
    intro y hy
    rw [hEq] at hy
    obtain ⟨hmf, _⟩ := List.mem_filter.1 hy
    obtain ⟨x, _, hcl⟩ := List.mem_map.1 hmf
    cases y with
    | obj kvs =>
      obtain ⟨kvs0, rfl, hkvs⟩ := cleanItem_eq_obj remote x kvs hcl
      show Json.obj (kvs.filter (keepKey remote2)) = Json.obj kvs
      congr 1
      rw [List.filter_eq_self]
      intro p hp
      have hkeep1 : keepKey remote p = true := (List.mem_filter.1 (hkvs ▸ hp)).2
      unfold keepKey at hkeep1 ⊢
      rw [Bool.and_eq_true, Bool.not_eq_true', Bool.not_eq_true'] at hkeep1 ⊢
      refine ⟨?_, hkeep1.2⟩
      cases hm2 : dictMember remote2 p.1 with
      | false => rfl
      | true => exact absurd (hsub p.1 hm2) (by rw [hkeep1.1]; exact Bool.noConfusion)
    | str s => rfl
    | null => rfl
    | bool b => rfl
    | num n => rfl
    | arr xs => rfl
  have hmap : out.map (cleanItem remote2) = out := listMapSelf _ _ hfix
  have hfil : out.filter truthy = out := by
    rw [List.filter_eq_self]
    intro y hy
    rw [hEq] at hy
    exact (List.mem_filter.1 hy).2
  show deduplicateContext out cache = some out
  simp only [deduplicateContext, pyDedupList, hagg2]
  rw [hmap, hfil]

/-- C9 witness: the deduplicated context `[s]` deduplicates to itself. -/
theorem dedup_idempotent_witness :
    deduplicateContext [Json.obj [("a", Json.str "user:x")], Json.str "s"] [] =
      some [Json.str "s"] ∧
    deduplicateContext [Json.str "s"] [] = some [Json.str "s"] :=
  ⟨rfl, dedup_idempotent [Json.obj [("a", Json.str "user:x")], Json.str "s"] []
    [Json.str "s"] rfl⟩

/-- C10: after deduplication every falsy entry of the local context sequence
is removed, not only empty mappings: an empty string, an empty list, `None`
and `0` are also dropped from the returned sequence. -/
theorem dedup_drops_falsy_entries (items : List Json) (cache : List (String × Json))
    (out : List Json) (h : deduplicateContext items cache = some out) :
    (∀ y ∈ out, truthy y = true) ∧ Json.null ∉ out ∧ Json.str "" ∉ out ∧
      Json.arr [] ∉ out ∧ Json.num 0 ∉ out ∧ Json.obj [] ∉ out := by
  obtain ⟨remote, _, rfl⟩ := deduplicateContext_some items cache out h
  have hall : ∀ y ∈ (items.map (cleanItem remote)).filter truthy, truthy y = true :=
    fun y hy => (List.mem_filter.1 hy).2
  have hfalsy : ∀ y, truthy y = false →
      y ∉ (items.map (cleanItem remote)).filter truthy := by
    intro y hf hc
    rw [hall y hc] at hf
    exact Bool.noConfusion hf
  exact ⟨hall, hfalsy _ (by decide), hfalsy _ (by decide), hfalsy _ (by decide),
    hfalsy _ (by decide), hfalsy _ (by decide)⟩

/-- C10 witness: a context holding `None`, the empty string, `[]`, `0` and one truthy
entry deduplicates to just the truthy entry. -/
theorem dedup_drops_falsy_entries_witness :
    deduplicateContext [Json.null, Json.str "", Json.arr [], Json.num 0, Json.str "k"]
        [] = some [Json.str "k"] ∧
    ((∀ y ∈ [Json.str "k"], truthy y = true) ∧ Json.null ∉ [Json.str "k"] ∧
      Json.str "" ∉ [Json.str "k"] ∧ Json.arr [] ∉ [Json.str "k"] ∧
      Json.num 0 ∉ [Json.str "k"] ∧ Json.obj [] ∉ [Json.str "k"]) :=
  ⟨rfl, dedup_drops_falsy_entries
    [Json.null, Json.str "", Json.arr [], Json.num 0, Json.str "k"] []
    [Json.str "k"] rfl⟩

/-! ### Claim theorems on document assembly -/

/-- C1: for every input (any content tree, any uri, any context cache, any
vocab), the `@context` value of the produced document is a sequence whose
first element is the canonical ontology URI string.  The content tree is a
dict, so its keys are unique. -/
theorem assemble_context_head_canonical (content : List (String × Json)) (uri : String)
    (cache : List (String × Json)) (vocab : String) (doc : List (String × Json))
    (hnodup : (content.map Prod.fst).Nodup)
    (h : assemble content uri cache vocab = some doc) :
    ∃ rest, dictLookup doc "@context" =
      some (Json.arr (Json.str CANONICAL :: rest)) := by
  obtain ⟨uc, cleaned, cc, doc1, doc2, h1, h2, h3, h4, h5, hdoc⟩ :=
    assemble_parts content uri cache vocab doc h
  obtain ⟨ci, rfl, rfl⟩ := prependCanonical_some cleaned cc h3
  have hdoc1 : ∃ items1 tail1,
      doc1 = ("@context", Json.arr (Json.str CANONICAL :: items1)) :: tail1 := by
    by_cases huri : uri = ""
    · subst huri
      rw [applyBase_skip] at h4
      obtain h4e : [("@context", Json.arr (Json.str CANONICAL :: ci))] = doc1 := by
        injection h4
      exact ⟨ci, [], h4e.symm⟩
    · obtain ⟨cc2, hset, rfl⟩ := applyBase_ctx _ _ _ huri h4
      obtain ⟨items2, rfl⟩ := setBase_head CANONICAL ci (uri ++ "#") cc2 hset
      exact ⟨items2, [("id", Json.str uri)], rfl⟩
  obtain ⟨items1, tail1, rfl⟩ := hdoc1
  have hdoc2 : ∃ items2,
      doc2 = ("@context", Json.arr (Json.str CANONICAL :: items2)) :: tail1 := by
    by_cases hvoc : vocab = ""
    · subst hvoc
      rw [applyVocab_skip] at h5
      obtain h5e : ("@context", Json.arr (Json.str CANONICAL :: items1)) :: tail1
          = doc2 := by injection h5
      exact ⟨items1, h5e.symm⟩
    · obtain ⟨cc3, hset, rfl⟩ := applyVocab_ctx _ _ _ _ hvoc h5
      obtain ⟨items2, rfl⟩ := setVocab_head CANONICAL items1 vocab cc3 hset
      exact ⟨items2, rfl⟩
  obtain ⟨items2, rfl⟩ := hdoc2
  subst hdoc
  refine ⟨items2, ?_⟩
  rw [dictLookup_dictUpdate_of_not_mem _ _ _
    (dictMember_dictPop_of_nodup content "@context" hnodup)]
  rfl

/-- C1 witness: a content tree with an empty local context, a uri and a
vocab produces a document whose context starts with the canonical URI. -/
theorem assemble_context_head_canonical_witness :
    (([("@context", Json.arr [])] : List (String × Json)).map Prod.fst).Nodup ∧
    ∃ rest,
      dictLookup
        [("@context", Json.arr [Json.str CANONICAL,
            Json.obj [("@base", Json.str "u#"), ("@vocab", Json.str "v")]]),
          ("id", Json.str "u")] "@context" =
        some (Json.arr (Json.str CANONICAL :: rest)) :=
  ⟨by simp,
    assemble_context_head_canonical [("@context", Json.arr [])] "u" [] "v" _
      (by simp) rfl⟩

/-- C4 counterexample: a content tree whose `@context` is `None` makes
construction raise (the TypeError from iterating `None` inside
`_deduplicate_context` is not caught), and a content tree without
`@context` raises KeyError at `content.pop(@context)`: neither behaves
as an empty local context. -/
theorem assemble_nonlist_context_raises :
    assemble [("@context", Json.null)] "" [] "" = none ∧
    assemble ([] : List (String × Json)) "" [] "" = none :=
  ⟨rfl, rfl⟩

/-- C4 (amended): for every input whose `@context` value is absent, `None`,
a boolean or a number, document construction raises and no document is
produced; the graceful degradation to an empty context applies only to the
remote-context-key extraction, not to construction as a whole. -/
theorem assemble_fails_on_non_iterable_context (content : List (String × Json))
    (uri : String) (cache : List (String × Json)) (vocab : String)
    (habs : dictLookup content "@context" = none ∨
      dictLookup content "@context" = some Json.null ∨
      (∃ b, dictLookup content "@context" = some (Json.bool b)) ∨
      (∃ n, dictLookup content "@context" = some (Json.num n))) :
    assemble content uri cache vocab = none := by
  rcases habs with h1 | h1 | ⟨b, h1⟩ | ⟨n, h1⟩ <;>
    simp [assemble, h1, pyDedup]

/-- C4 amended-claim witness at a concrete `None` context. -/
theorem assemble_fails_on_non_iterable_context_witness :
    assemble [("@context", Json.null)] "u" [] "" = none :=
  assemble_fails_on_non_iterable_context [("@context", Json.null)] "u" [] ""
    (Or.inr (Or.inl rfl))

/-- C5 counterexample: with vocab `"v"` supplied and the assembled context
ending in a mapping that already defines `@vocab`, the membership test on
line 105 succeeds without raising, so nothing is set and nothing is
appended: the supplied vocab is recorded nowhere in the final context. -/
theorem vocab_not_recorded_counterexample :
    assemble [("@context", Json.arr [Json.obj [("@vocab", Json.str "http://x/")]])]
        "" [] "v" =
      some [("@context", Json.arr [Json.str CANONICAL,
        Json.obj [("@vocab", Json.str "http://x/")]])] ∧
    Json.obj [("@vocab", Json.str "v")] ∉
      [Json.str CANONICAL, Json.obj [("@vocab", Json.str "http://x/")]] ∧
    (∀ kvs, List.getLast? [Json.str CANONICAL,
        Json.obj [("@vocab", Json.str "http://x/")]] = some (Json.obj kvs) →
      ¬ dictLookup kvs "@vocab" = some (Json.str "v")) := by
  refine ⟨rfl, ?_, ?_⟩
  · intro hc
    rcases List.mem_cons.1 hc with he | hc2
    · exact Json.noConfusion he
    · rcases List.mem_cons.1 hc2 with he | hc3
      · obtain h2 : [("@vocab", Json.str "v")] = [("@vocab", Json.str "http://x/")] := by
          injection he
        obtain h3 : ("@vocab", Json.str "v") = ("@vocab", Json.str "http://x/") := by
          injection h2
        obtain h4 : Json.str "v" = Json.str "http://x/" := congrArg Prod.snd h3
        obtain h5 : "v" = "http://x/" := by injection h4
        exact absurd h5 (by decide)
      · exact absurd hc3 (List.not_mem_nil _)
  · intro kvs hk heq
    obtain h2 : Json.obj [("@vocab", Json.str "http://x/")] = Json.obj kvs := by
      injection hk
    obtain rfl : [("@vocab", Json.str "http://x/")] = kvs := by injection h2
    rw [show dictLookup [("@vocab", Json.str "http://x/")] "@vocab" =
      some (Json.str "http://x/") from rfl] at heq
    obtain h4 : Json.str "http://x/" = Json.str "v" := by injection heq
    obtain h5 : "http://x/" = "v" := by injection h4
    exact absurd h5 (by decide)

/-- C5 (amended): the vocab step on a non-empty assembled context list is
governed by the Python membership test on the trailing element: a mapping
lacking `@vocab` gains `@vocab = vocab` in place; a mapping already defining
`@vocab` leaves the context unchanged, so the supplied vocab is not
recorded; so do a string containing the substring `@vocab` and a list
containing the element `@vocab`; every other trailing element causes a new
trailing mapping `{@vocab: vocab}` to be appended. -/
theorem setVocab_cases (items : List Json) (last : Json) (v : String)
    (hlast : items.getLast? = some last) :
    setVocab (.arr items) v = some (vocabStepSpec items last v) := by
  cases last with
  | obj kvs =>
    cases hm : dictMember kvs "@vocab" with
    | true => simp only [setVocab, tryVocab, hlast, vocabMem, hm, vocabStepSpec, if_true]
    | false => simp [setVocab, tryVocab, hlast, vocabMem, hm, vocabStepSpec]
  | str s =>
    cases hm : strContains s "@vocab" with
    | true => simp only [setVocab, tryVocab, hlast, vocabMem, hm, vocabStepSpec, if_true]
    | false =>
      simp [setVocab, tryVocab, hlast, vocabMem, hm, vocabStepSpec, appendObj]
  | arr xs =>
    cases hm : hasVocabElem xs with
    | true => simp only [setVocab, tryVocab, hlast, vocabMem, hm, vocabStepSpec, if_true]
    | false =>
      simp [setVocab, tryVocab, hlast, vocabMem, hm, vocabStepSpec, appendObj]
  | null => simp only [setVocab, tryVocab, hlast, vocabMem, vocabStepSpec, appendObj]
  | bool b => simp only [setVocab, tryVocab, hlast, vocabMem, vocabStepSpec, appendObj]
  | num n => simp only [setVocab, tryVocab, hlast, vocabMem, vocabStepSpec, appendObj]

/-- C5 amended-claim witness: a trailing mapping without `@vocab` gains it
in place. -/
theorem setVocab_cases_witness :
    List.getLast? [Json.obj [("a", Json.str "b")]] = some (Json.obj [("a", Json.str "b")]) ∧
    setVocab (.arr [Json.obj [("a", Json.str "b")]]) "v" =
      some (vocabStepSpec [Json.obj [("a", Json.str "b")]]
        (Json.obj [("a", Json.str "b")]) "v") :=
  ⟨rfl, setVocab_cases [Json.obj [("a", Json.str "b")]] (Json.obj [("a", Json.str "b")])
    "v" rfl⟩

theorem setBase_structure (ci : List Json) (b : String)
    (hm : ∀ kvs, Json.obj kvs ∈ ci → dictMember kvs "@vocab" = false) :
    ∃ pre m1,
      setBase (.arr (.str CANONICAL :: ci)) b = some (.arr (pre ++ [.obj m1])) ∧
      dictLookup m1 "@base" = some (.str b) ∧
      dictMember m1 "@vocab" = false ∧
      ∀ e ∈ pre, e ∈ (Json.str CANONICAL :: ci) := by
  rcases List.eq_nil_or_concat ci with rfl | ⟨l2, a, rfl⟩
  · refine ⟨[Json.str CANONICAL], [("@base", Json.str b)], rfl, rfl, rfl, ?_⟩
    intro e he
    exact he
  · rw [List.concat_eq_append] at hm ⊢
    have hlast : (Json.str CANONICAL :: (l2 ++ [a])).getLast? = some a := by
      rw [← List.cons_append]
      exact List.getLast?_concat _
    have hdrop : (Json.str CANONICAL :: (l2 ++ [a])).dropLast =
        Json.str CANONICAL :: l2 := by
      rw [← List.cons_append]
      exact List.dropLast_concat
    have hpre : ∀ e ∈ Json.str CANONICAL :: l2,
        e ∈ Json.str CANONICAL :: (l2 ++ [a]) := by
      intro e he
      rcases List.mem_cons.1 he with rfl | he2
      · exact List.mem_cons_self _ _
      · exact List.mem_cons_of_mem _ (List.mem_append_left _ he2)
    cases a with
    | obj kvs =>
      have hkv : dictMember kvs "@vocab" = false :=
        hm kvs (List.mem_append_right _ (List.mem_cons_self _ _))
      refine ⟨Json.str CANONICAL :: l2, dictSet kvs "@base" (Json.str b), ?_, ?_, ?_, hpre⟩
      · simp only [setBase, tryBase, hlast, hdrop]
      · exact dictLookup_dictSet_self kvs "@base" (Json.str b)
      · rw [Bool.eq_false_iff]
        intro hc
        rcases (dictMember_dictSet kvs "@base" "@vocab" (Json.str b)).1 hc with he | hc2
        · exact absurd he (by decide)
        · rw [hkv] at hc2
          exact Bool.noConfusion hc2
    | null =>
      refine ⟨Json.str CANONICAL :: (l2 ++ [Json.null]), [("@base", Json.str b)],
        ?_, rfl, rfl, fun e he => he⟩
      simp only [setBase, tryBase, hlast, appendObj]
    | bool b2 =>
      refine ⟨Json.str CANONICAL :: (l2 ++ [Json.bool b2]), [("@base", Json.str b)],
        ?_, rfl, rfl, fun e he => he⟩
      simp only [setBase, tryBase, hlast, appendObj]
    | num n =>
      refine ⟨Json.str CANONICAL :: (l2 ++ [Json.num n]), [("@base", Json.str b)],
        ?_, rfl, rfl, fun e he => he⟩
      simp only [setBase, tryBase, hlast, appendObj]
    | str s =>
      refine ⟨Json.str CANONICAL :: (l2 ++ [Json.str s]), [("@base", Json.str b)],
        ?_, rfl, rfl, fun e he => he⟩
      simp only [setBase, tryBase, hlast, appendObj]
    | arr xs =>
      refine ⟨Json.str CANONICAL :: (l2 ++ [Json.arr xs]), [("@base", Json.str b)],
        ?_, rfl, rfl, fun e he => he⟩
      simp only [setBase, tryBase, hlast, appendObj]

theorem setVocab_on_marker (pre : List Json) (m1 : List (String × Json)) (v : String)
    (hnv : dictMember m1 "@vocab" = false) :
    setVocab (.arr (pre ++ [.obj m1])) v =
      some (.arr (pre ++ [.obj (dictSet m1 "@vocab" (.str v))])) := by
  have hlast : (pre ++ [Json.obj m1]).getLast? = some (.obj m1) :=
    List.getLast?_concat _
  have hdrop : (pre ++ [Json.obj m1]).dropLast = pre := List.dropLast_concat
  simp only [setVocab, tryVocab, hlast, vocabMem, hnv, hdrop]

/-- C6 (amended): for every construction where both a uri and a vocab are
supplied and no mapping entry of the list-valued local context defines
`@base` or `@vocab`, the `@context` of the output document ends in exactly one
trailing marker object that contains both `@base` (equal to `uri + "#"`) and
`@vocab` (equal to the supplied vocab), no other element of the context is a
marker, and no second marker object is created. -/
theorem assemble_single_trailing_marker (content : List (String × Json))
    (uri vocab : String) (cache : List (String × Json)) (doc : List (String × Json))
    (localItems : List Json)
    (hnodup : (content.map Prod.fst).Nodup)
    (huri : ¬ uri = "") (hvocab : ¬ vocab = "")
    (hctx : dictLookup content "@context" = some (Json.arr localItems))
    (hmarker : ∀ kvs, Json.obj kvs ∈ localItems → isMarker (Json.obj kvs) = false)
    (h : assemble content uri cache vocab = some doc) :
    ∃ pre m,
      dictLookup doc "@context" = some (Json.arr (pre ++ [Json.obj m])) ∧
      dictLookup m "@base" = some (Json.str (uri ++ "#")) ∧
      dictLookup m "@vocab" = some (Json.str vocab) ∧
      ∀ e ∈ pre, isMarker e = false := by
  obtain ⟨uc, cleaned, cc, doc1, doc2, h1, h2, h3, h4, h5, hdoc⟩ :=
    assemble_parts content uri cache vocab doc h
  rw [hctx] at h1
  obtain rfl : Json.arr localItems = uc := by injection h1
  obtain ⟨ci, hcl, hded⟩ := pyDedup_arr _ _ _ _ h2
  subst hcl
  obtain ⟨ci1, hinj, rfl⟩ := prependCanonical_some _ _ h3
  obtain rfl : ci = ci1 := by injection hinj
  obtain ⟨remote, _, hout⟩ := pyDedupList_some _ _ _ _ hded
  have hciMarker : ∀ kvs, Json.obj kvs ∈ ci → dictMember kvs "@base" = false ∧
      dictMember kvs "@vocab" = false := by
    intro kvs hk
    rw [hout] at hk
    obtain ⟨hmf, _⟩ := List.mem_filter.1 hk
    obtain ⟨x, hx, hcl⟩ := List.mem_map.1 hmf
    obtain ⟨kvs0, rfl, hkvs⟩ := cleanItem_eq_obj remote x kvs hcl
    have h0 := hmarker kvs0 hx
    unfold isMarker at h0
    rw [Bool.or_eq_false_iff] at h0
    constructor
    · rw [Bool.eq_false_iff]
      intro hb
      rw [hkvs] at hb
      rw [(dictMember_of_filter kvs0 (keepKey remote) "@base" hb)] at h0
      exact Bool.noConfusion h0.1
    · rw [Bool.eq_false_iff]
      intro hb
      rw [hkvs] at hb
      rw [(dictMember_of_filter kvs0 (keepKey remote) "@vocab" hb)] at h0
      exact Bool.noConfusion h0.2
  obtain ⟨pre, m1, hsetb, hbase1, hnv1, hpre⟩ :=
    setBase_structure ci (uri ++ "#") (fun kvs hk => (hciMarker kvs hk).2)
  obtain ⟨cc2, hset, rfl⟩ := applyBase_ctx _ _ _ huri h4
  rw [hsetb] at hset
  obtain rfl : Json.arr (pre ++ [Json.obj m1]) = cc2 := by injection hset
  obtain ⟨cc3, hsetv, rfl⟩ := applyVocab_ctx _ _ _ _ hvocab h5
  rw [setVocab_on_marker pre m1 vocab hnv1] at hsetv
  obtain rfl :
      Json.arr (pre ++ [Json.obj (dictSet m1 "@vocab" (Json.str vocab))]) = cc3 := by
    injection hsetv
  subst hdoc
  refine ⟨pre, dictSet m1 "@vocab" (Json.str vocab), ?_, ?_, ?_, ?_⟩
  · rw [dictLookup_dictUpdate_of_not_mem _ _ _
      (dictMember_dictPop_of_nodup content "@context" hnodup)]
    rfl
  · rw [dictLookup_dictSet_ne m1 "@vocab" "@base" (Json.str vocab) (by decide)]
    exact hbase1
  · exact dictLookup_dictSet_self m1 "@vocab" (Json.str vocab)
  · intro e he
    rcases List.mem_cons.1 (hpre e he) with rfl | he2
    · rfl
    · cases e with
      | obj kvs =>
        show (dictMember kvs "@base" || dictMember kvs "@vocab") = false
        rw [(hciMarker kvs he2).1, (hciMarker kvs he2).2]
        rfl
      | null => rfl
      | bool b2 => rfl
      | num n => rfl
      | str s => rfl
      | arr xs => rfl

/-- C6 amended-claim witness: empty local context, uri `"u"`, vocab `"v"`:
the marker `{@base: u#, @vocab: v}` is appended once. -/
theorem assemble_single_trailing_marker_witness :
    (([("@context", Json.arr [])] : List (String × Json)).map Prod.fst).Nodup ∧
    ∃ pre m,
      dictLookup
        [("@context", Json.arr [Json.str CANONICAL,
            Json.obj [("@base", Json.str "u#"), ("@vocab", Json.str "v")]]),
          ("id", Json.str "u")] "@context" =
        some (Json.arr (pre ++ [Json.obj m])) ∧
      dictLookup m "@base" = some (Json.str ("u" ++ "#")) ∧
      dictLookup m "@vocab" = some (Json.str "v") ∧
      ∀ e ∈ pre, isMarker e = false :=
  ⟨by simp,
    assemble_single_trailing_marker [("@context", Json.arr [])] "u" "v" [] _ []
      (by simp) (by decide) (by decide) rfl
      (fun kvs hk => absurd hk (List.not_mem_nil _)) rfl⟩

/-- C6 counterexample: local context
`[{@vocab: http://x/}, {k: user:y}]` has no trailing marker mapping
(its trailing entry defines neither `@base` nor `@vocab`), yet with uri
`"u"` and vocab `"v"` the deduplication step removes the trailing entry, the
earlier `{@vocab: ...}` mapping becomes trailing, and the resulting single
trailing object carries the `@vocab` of the user, not the supplied one. -/
theorem trailing_marker_counterexample :
    isMarker (Json.obj [("k", Json.str "user:y")]) = false ∧
    assemble
        [("@context", Json.arr [Json.obj [("@vocab", Json.str "http://x/")],
          Json.obj [("k", Json.str "user:y")]])]
        "u" [] "v" =
      some [("@context", Json.arr [Json.str CANONICAL,
          Json.obj [("@vocab", Json.str "http://x/"), ("@base", Json.str "u#")]]),
        ("id", Json.str "u")] ∧
    ¬ dictLookup [("@vocab", Json.str "http://x/"), ("@base", Json.str "u#")]
        "@vocab" = some (Json.str "v") := by
  refine ⟨rfl, rfl, ?_⟩
  intro heq
  rw [show dictLookup [("@vocab", Json.str "http://x/"), ("@base", Json.str "u#")]
    "@vocab" = some (Json.str "http://x/") from rfl] at heq
  obtain h4 : Json.str "http://x/" = Json.str "v" := by injection heq
  obtain h5 : "http://x/" = "v" := by injection h4
  exact absurd h5 (by decide)

/-- C3 counterexample: with the content and cache of the scenario the string
entry `"https://example.org/ctx"` is NOT dropped from the output
`@context`: deduplication only removes keys from mapping entries and drops
falsy entries, and a non-empty string entry is neither. -/
theorem string_entry_retained_counterexample :
    assemble
        [("@context", Json.arr [Json.str "https://example.org/ctx"]),
          ("birthPlace", Json.obj [("_label", Json.str "Leytonstone")])]
        ""
        [("https://example.org/ctx",
          Json.obj [("@context",
            Json.obj [("birthPlace",
              Json.obj [("@id", Json.str "https://schema.org/birthPlace")])])])]
        "" =
      some [("@context",
          Json.arr [Json.str CANONICAL, Json.str "https://example.org/ctx"]),
        ("birthPlace", Json.obj [("_label", Json.str "Leytonstone")])] ∧
    Json.str "https://example.org/ctx" ∈
      [Json.str CANONICAL, Json.str "https://example.org/ctx"] :=
  ⟨rfl, List.mem_cons_of_mem _ (List.mem_cons_self _ _)⟩

/-- C3 (amended): in the scenario, the string context entry is retained in
the output `@context` (string entries are never dropped unless falsy), and
`birthPlace` does not appear in any mapping entry of the output
`@context` (the output context holds no mapping entry at all). -/
theorem string_entry_retained_birthplace_absent :
    assemble
        [("@context", Json.arr [Json.str "https://example.org/ctx"]),
          ("birthPlace", Json.obj [("_label", Json.str "Leytonstone")])]
        ""
        [("https://example.org/ctx",
          Json.obj [("@context",
            Json.obj [("birthPlace",
              Json.obj [("@id", Json.str "https://schema.org/birthPlace")])])])]
        "" =
      some [("@context",
          Json.arr [Json.str CANONICAL, Json.str "https://example.org/ctx"]),
        ("birthPlace", Json.obj [("_label", Json.str "Leytonstone")])] ∧
    Json.str "https://example.org/ctx" ∈
      [Json.str CANONICAL, Json.str "https://example.org/ctx"] ∧
    (∀ e ∈ [Json.str CANONICAL, Json.str "https://example.org/ctx"],
      ∀ kvs, e = Json.obj kvs → dictMember kvs "birthPlace" = false) := by
  refine ⟨rfl, List.mem_cons_of_mem _ (List.mem_cons_self _ _), ?_⟩
  intro e he kvs hkv
  rcases List.mem_cons.1 he with rfl | he2
  · exact Json.noConfusion hkv
  · rcases List.mem_cons.1 he2 with rfl | he3
    · exact Json.noConfusion hkv
    · exact absurd he3 (List.not_mem_nil e)

/-- C7: evaluating the `framed` property mutates the un-framed document:
`context = self.document[@context]` aliases the context list held by the
document itself, so `context[0] = ctx[@context]` (line 161) replaces the
first context element of the document with the loaded ontology body, and the
restore on line 168 is applied to the freshly built framed output rather
than to the document.  At this concrete document with an `id`, the first
context element afterwards is the ontology body, not the canonical URI
string. -/
theorem framed_mutates_document :
    framedDocumentAfter
        [("@context", Json.arr [Json.str CANONICAL, Json.obj [("@base", Json.str "u#")]]),
          ("id", Json.str "u")]
        (Json.obj []) =
      some [("@context", Json.arr [Json.obj [], Json.obj [("@base", Json.str "u#")]]),
        ("id", Json.str "u")] ∧
    ¬ ((Json.obj [] : Json) = Json.str CANONICAL) :=
  ⟨rfl, fun hc => Json.noConfusion hc⟩

end Articular
